import Mathlib

/-!
Shallow embedding of the "Level" dataset-rebalancing tool (HTV repository):
the waveform drag handlers and rendering of `frontend/src/components/Waveform.tsx`,
the terrain height adjustment of `useDataset.ts`/`TerrainMap`, the Gini metric and
1-D ordering of the backend guides, and the spec's Adjustment Store.

Numbers are embedded as exact rationals (`ℚ`): the JavaScript sources use IEEE
doubles, but every property below concerns the ideal arithmetic the code writes
down; `Math.round` and `toFixed` are modelled explicitly.  Transcendental
functions (`Math.exp`, `Math.sqrt`) are abstracted as function parameters.
-/

namespace Level

/-- JS `Math.round q`: round half toward positive infinity. -/
def jsRound (q : ℚ) : ℤ := Int.floor (q + 1/2)

/-- JS `Number(q.toFixed(2))` for a nonnegative `q`: round to the nearest
hundredth (ties round up, matching `toFixed` on nonnegative doubles). -/
def toFixed2 (q : ℚ) : ℚ := (jsRound (q * 100) : ℚ) / 100

/-! ### Waveform data model (`frontend/src/types/index.ts`)

Presentation-only string fields (`label`, `color`, `reasoning`, `samples`) are
omitted: no claim mentions them and every source operation copies them
unchanged via object spread. -/

/-- `WaveformPeak` from `types/index.ts`: a user/AI peak. -/
structure WaveformPeak where
  id : ℤ
  x : ℚ
  count : ℤ
  weight : ℚ
deriving Repr, DecidableEq

/-- `BasePeak` from `types/index.ts`: a base peak, with the immutable
`sampleCount` of the cluster. -/
structure BasePeak where
  id : ℤ
  x : ℚ
  count : ℤ
  weight : ℚ
  sampleCount : ℕ
deriving Repr, DecidableEq

/-- `Waveform` from `types/index.ts` (user and AI waveforms). -/
structure Waveform where
  peaks : List WaveformPeak
  totalPoints : ℕ
deriving Repr, DecidableEq

/-- `BaseWaveform` from `types/index.ts`. -/
structure BaseWaveform where
  peaks : List BasePeak
  totalPoints : ℕ
deriving Repr, DecidableEq

/-- `WaveformMode` from `types/index.ts`. -/
inductive WaveformMode where
  | count : WaveformMode
  | weight : WaveformMode
deriving Repr, DecidableEq

/-! ### The drag handler of `Waveform.tsx` -/

/-- `width` in `Waveform.tsx`. -/
def svgWidth : ℚ := 1100

/-- `height` in `Waveform.tsx`. -/
def svgHeight : ℚ := 700

/-- `padding` in `Waveform.tsx`. -/
def svgPadding : ℚ := 100

/-- `handleMouseMove` lines 239-242: `normalizedY = (y - padding) / (height -
2*padding)`, then `ratio = Math.max(0, Math.min(1, 1 - normalizedY))`.  `y` is
the cursor offset inside the svg element and may lie outside `[0, height]`. -/
def dragRatio (y : ℚ) : ℚ :=
  max 0 (min 1 (1 - (y - svgPadding) / (svgHeight - 2 * svgPadding)))

/-- `Math.max(...baseData.peaks.map((p) => p.sampleCount))`.  JS `Math.max` of
an empty spread is `-Infinity`; the handlers only evaluate this on nonempty
peak lists, where the fold below agrees with `Math.max` (counts are `ℕ`). -/
def maxSampleCount (peaks : List BasePeak) : ℕ :=
  peaks.foldr (fun p m => max p.sampleCount m) 0

/-- Count-mode drag adjustment, `Waveform.tsx` lines 259-261:
`absoluteCount = Math.round(ratio * maxSampleCount)`;
`newCount = Math.min(absoluteCount, basePeak.sampleCount)`. -/
def waveformDragCount (y : ℚ) (maxSC sampleCount : ℕ) : ℤ :=
  min (jsRound (dragRatio y * maxSC)) (sampleCount : ℤ)

/-- The per-peak update of the count branch of `handleMouseMove`
(lines 253-265): only the dragged peak changes, and only if a base peak with
the same id exists. -/
def adjustPeakCount (y : ℚ) (basePeaks : List BasePeak) (draggingPeak : ℤ)
    (peak : WaveformPeak) : WaveformPeak :=
  if peak.id = draggingPeak then
    match basePeaks.find? (fun p => p.id == peak.id) with
    | none => peak
    | some basePeak =>
        { peak with count := waveformDragCount y (maxSampleCount basePeaks) basePeak.sampleCount }
  else peak

/-- The count branch of `handleMouseMove` (lines 248-266): spread keeps
`totalPoints`, only `peaks` is rebuilt. -/
def handleMouseMoveCount (y : ℚ) (baseData : BaseWaveform) (userData : Waveform)
    (draggingPeak : ℤ) : Waveform :=
  { userData with peaks := userData.peaks.map (adjustPeakCount y baseData.peaks draggingPeak) }

/-- Weight-mode drag adjustment, `Waveform.tsx` lines 269-279:
`minWeight = 0.01`, `maxWeight = 2`,
`newWeight = minWeight + ratio * (maxWeight - minWeight)`,
`clampedWeight = Math.max(minWeight, Math.min(maxWeight, newWeight))`,
stored as `Number(clampedWeight.toFixed(2))`. -/
def waveformDragWeight (y : ℚ) : ℚ :=
  toFixed2 (max (1/100) (min 2 (1/100 + dragRatio y * (2 - 1/100))))

/-- The per-peak update of the weight branch of `handleMouseMove`
(lines 272-283). -/
def adjustPeakWeight (y : ℚ) (draggingPeak : ℤ) (peak : WaveformPeak) : WaveformPeak :=
  if peak.id = draggingPeak then { peak with weight := waveformDragWeight y } else peak

/-- The weight branch of `handleMouseMove` (lines 267-284). -/
def handleMouseMoveWeight (y : ℚ) (userData : Waveform) (draggingPeak : ℤ) : Waveform :=
  { userData with peaks := userData.peaks.map (adjustPeakWeight y draggingPeak) }

/-! ### Terrain data model (`frontend/src/types/terrain.ts`) and the height
adjustment of `useDataset.ts` (`useTerrain.updateHillHeight`) / `TerrainMap`
(`handleHeightChange`).  The two handlers share the same body. -/

/-- `Hill` from `types/terrain.ts` (string fields omitted, see above). -/
structure Hill where
  id : ℤ
  center : ℚ × ℚ
  height : ℚ
  originalHeight : ℚ
  radius : ℚ
  weight : ℚ
  sampleCount : ℕ
deriving Repr, DecidableEq

/-- `BiasMetrics` from `types/terrain.ts`. -/
structure BiasMetrics where
  totalPoints : ℕ
  clusterCount : ℕ
  giniCoefficient : ℚ
  flatnessScore : ℚ
deriving Repr, DecidableEq

/-- `TerrainData` from `types/terrain.ts`. -/
structure TerrainData where
  hills : List Hill
  gridSize : ℕ
  heightData : List (List ℚ)
  metrics : BiasMetrics
deriving Repr, DecidableEq

/-- Indexed map: the quantity the source's `for (let x = 0; ...)` loops carry.
`mapIdxFrom f i [a, b, ...] = [f i a, f (i+1) b, ...]`. -/
def mapIdxFrom (f : ℕ → α → β) : ℕ → List α → List β
  | _, [] => []
  | i, a :: t => f i a :: mapIdxFrom f (i + 1) t

/-- One hill's Gaussian contribution to cell `(x, z)`, from `generateHeightData`
(`useDataset.ts` lines 70-83): `gridCx = ((cx + 50) / 100) * gridSize`,
`dist = Math.sqrt((x - gridCx)² + (z - gridCz)²)`,
`contribution = height * Math.exp(-(dist²) / (2 * (radius / 10)²))`.
`Math.exp` and `Math.sqrt` are abstracted as `expFn` and `sqrtFn`. -/
def hillContribution (expFn sqrtFn : ℚ → ℚ) (gridSize : ℕ) (hill : Hill)
    (x z : ℕ) : ℚ :=
  (((hill.center.1 + 50) / 100) * gridSize, ((hill.center.2 + 50) / 100) * gridSize)
  |> fun (gridCx, gridCz) =>
    hill.height *
      expFn (-(sqrtFn (((x : ℚ) - gridCx) ^ 2 + ((z : ℚ) - gridCz) ^ 2) ^ 2) /
        (2 * (hill.radius / 10) ^ 2))

/-- The two nested loops of `generateHeightData` for one hill:
`heightData[x][z] += contribution`. -/
def addHillContribution (expFn sqrtFn : ℚ → ℚ) (gridSize : ℕ) (hill : Hill)
    (heightData : List (List ℚ)) : List (List ℚ) :=
  mapIdxFrom
    (fun x row => mapIdxFrom (fun z v => v + hillContribution expFn sqrtFn gridSize hill x z) 0 row)
    0 heightData

/-- `generateHeightData(hills, gridSize)` (`useDataset.ts` lines 65-87 and the
identical copy in `TerrainMap`): start from a `gridSize × gridSize` grid of
zeros and accumulate each hill's Gaussian contribution into every cell. -/
def generateHeightData (expFn sqrtFn : ℚ → ℚ) (hills : List Hill) (gridSize : ℕ) :
    List (List ℚ) :=
  hills.foldl (fun heightData hill => addHillContribution expFn sqrtFn gridSize hill heightData)
    (List.replicate gridSize (List.replicate gridSize (0 : ℚ)))

/-- The clamped height and derived weight of `updateHillHeight` /
`handleHeightChange`: `clampedHeight = Math.max(0, Math.min(newHeight,
hill.originalHeight * 2))`, `weight = clampedHeight / hill.originalHeight`. -/
def hillClampedHeight (newHeight originalHeight : ℚ) : ℚ :=
  max 0 (min newHeight (originalHeight * 2))

/-- The weight written by the terrain adjustment path. -/
def hillAdjustedWeight (newHeight originalHeight : ℚ) : ℚ :=
  hillClampedHeight newHeight originalHeight / originalHeight

/-- `updateHillHeight(hillId, newHeight)` from `useDataset.ts` lines 98-123
(and `handleHeightChange` in `TerrainMap`): update the matching hill's
`height`/`weight`, regenerate `heightData`, keep everything else (including
`metrics`) by spread. -/
def updateHillHeight (expFn sqrtFn : ℚ → ℚ) (terrainData : TerrainData)
    (hillId : ℤ) (newHeight : ℚ) : TerrainData :=
  (terrainData.hills.map (fun hill =>
    if hill.id = hillId then
      { hill with
        height := hillClampedHeight newHeight hill.originalHeight
        weight := hillAdjustedWeight newHeight hill.originalHeight }
    else hill))
  |> fun updatedHills =>
    { terrainData with
      hills := updatedHills
      heightData := generateHeightData expFn sqrtFn updatedHills terrainData.gridSize }

/-! ### Gini coefficient (Metric Engine)

The formula is transcribed from `BACKEND.md` ("Key Calculations", also
`backend.md` §"Gini Coefficient"):

    sorted_amps = sorted(amplitudes)
    n = len(sorted_amps)
    cumsum = sum((i + 1) * a for i, a in enumerate(sorted_amps))
    gini = (2 * cumsum) / (n * sum(sorted_amps)) - (n + 1) / n

The backend service that executes it (`services/waveform.py`) is not part of
the sources; the degenerate-input guard is modelled from the spec (see
`computeGini`). -/

/-- `sum((i + 1) * a for i, a in enumerate(l))`, carrying the running index. -/
def giniCumsum : ℕ → List ℚ → ℚ
  | _, [] => 0
  | i, a :: t => ((i : ℚ) + 1) * a + giniCumsum (i + 1) t

/-- The Gini formula applied to an already-sorted list.
Modelled from the spec: the executable Gini computation lives in the backend
service `waveform.py`, which is absent from the sources; its formula is taken
verbatim from `BACKEND.md` and the guard returning `0` on degenerate input
(empty, or all-zero total) from the spec sentence "Degenerate input (all
zeros, or length 0) must return a defined value (0.0) rather than dividing by
zero." -/
def giniOfSorted (s : List ℚ) : ℚ :=
  if (s.length : ℚ) = 0 ∨ s.sum = 0 then 0
  else 2 * giniCumsum 0 s / ((s.length : ℚ) * s.sum) - ((s.length : ℚ) + 1) / (s.length : ℚ)

/-- `computeGini`: sort ascending, then apply the formula. -/
def computeGini (amplitudes : List ℚ) : ℚ :=
  giniOfSorted (amplitudes.insertionSort (· ≤ ·))

/-- The discrete Gini estimator exactly as the spec words it: "sort ascending;
for n values `v_1..v_n` (1-indexed after sort),
`gini = (2 * Σ i*v_i) / (n * Σ v_i) − (n+1)/n`".  Kept separate from
`computeGini` so the two can be compared. -/
def giniEstimatorSpec (values : List ℚ) : ℚ :=
  (values.insertionSort (· ≤ ·)) |> fun v =>
    2 * (∑ i ∈ Finset.range v.length, ((i : ℚ) + 1) * v.getD i 0)
        / ((v.length : ℚ) * v.sum)
      - ((v.length : ℚ) + 1) / (v.length : ℚ)

/-! ### Adjustment Store (spec §4.4)

Modelled from the spec: the Adjustment Store (`applyAdjustment` in the backend,
reached through `apiClient.adjustAmplitudes`) is not among the sources — the
frontend only mirrors it optimistically during a drag.  The definitions below
follow the spec's words in §4.4. -/

/-- A cluster's immutable base statistic used by the store. -/
structure Cluster where
  sampleCount : ℕ
deriving Repr, DecidableEq

/-- The mutable per-cluster adjustment record (spec §3). -/
structure Adjustment where
  selectedCount : ℤ
  weight : ℚ
deriving Repr, DecidableEq

/-- Spec default weight bounds `[0.0, 2.0]`. -/
def weightMin : ℚ := 0

/-- Spec default weight bounds `[0.0, 2.0]`. -/
def weightMax : ℚ := 2

/-- Modelled from the spec (§4.4, count branch of `applyAdjustment`): "If
`selectedCount` supplied: clamp to `[0, cluster.sampleCount]` ...  On success,
also recompute `weight = selectedCount / sampleCount` (or leave `weight` at 0
when `sampleCount = 0` ...)." -/
def applyCountAdjustment (c : Cluster) (selectedCount : ℤ) : Adjustment :=
  (max 0 (min selectedCount (c.sampleCount : ℤ))) |> fun clamped =>
    { selectedCount := clamped
      weight := if (c.sampleCount : ℚ) = 0 then 0 else (clamped : ℚ) / (c.sampleCount : ℚ) }

/-- Modelled from the spec (§4.4, weight branch of `applyAdjustment`): "If
`weight` supplied: clamp to `[weightMin, weightMax]` ...  Recompute
`selectedCount = round(weight * sampleCount)`, clamped to
`[0, sampleCount]`." -/
def applyWeightAdjustment (c : Cluster) (weight : ℚ) : Adjustment :=
  (max weightMin (min weight weightMax)) |> fun clampedWeight =>
    { selectedCount := max 0 (min (jsRound (clampedWeight * c.sampleCount)) (c.sampleCount : ℤ))
      weight := clampedWeight }

/-! ### Cluster ordering (spec §4.2, `project_to_1d` in `BACKEND.md`) -/

/-- Minimum of a list of rationals (`positions.min()` on a nonempty array). -/
def listMin : List ℚ → ℚ
  | [] => 0
  | q :: t => t.foldl min q

/-- Maximum of a list of rationals (`positions.max()` on a nonempty array). -/
def listMax : List ℚ → ℚ
  | [] => 0
  | q :: t => t.foldl max q

/-- The spec's degenerate assignment: "assign evenly spaced positions by
ascending cluster id"; a single cluster gets position `0.5` (§4.2 failure
semantics). -/
def evenlySpacedByIds (ids : List ℤ) : List (ℤ × ℚ) :=
  (ids.insertionSort (· ≤ ·)) |> fun sorted =>
    if sorted.length ≤ 1 then sorted.map (fun i => (i, (1 : ℚ) / 2))
    else mapIdxFrom (fun idx i => (i, (idx : ℚ) / ((sorted.length : ℚ) - 1))) 0 sorted

/-- Modelled from the spec: `orderClusters` lives in the backend service
`clusterer.py`, absent from the sources.  Its min-max normalization step is
transcribed from `project_to_1d` in `BACKEND.md`
(`(positions - positions.min()) / (positions.max() - positions.min())`,
applied here to the post-projection scalars paired with their cluster ids);
the degenerate branch (all scalars equal) follows the spec sentence "assign
evenly spaced positions by ascending cluster id instead of dividing by zero
range." -/
def orderClusters (scalars : List (ℤ × ℚ)) : List (ℤ × ℚ) :=
  (scalars.map Prod.snd) |> fun vals =>
    if listMax vals = listMin vals then evenlySpacedByIds (scalars.map Prod.fst)
    else scalars.map (fun p => (p.1, (p.2 - listMin vals) / (listMax vals - listMin vals)))

/-! ### Path rendering (`generateUserPath` / `generateBasePath` in
`Waveform.tsx`).  Both compute a point per peak — an x from the peak's
position and a y from a normalized height ratio — then print an SVG path
string; the source functions only read the peak data (no `setState` calls),
which the embedding reflects by making them pure functions of their inputs. -/

/-- The screen point of one user/AI peak (`generateUserPath` lines 65-72 and
90-97): count mode uses `ratio = maxSampleCount > 0 ? p.count / maxSampleCount
: 1`; weight mode uses `ratio = (p.weight - minWeight) / (maxWeight -
minWeight)` with the fixed band `minWeight = 0.01`, `maxWeight = 2`. -/
def userPeakPoint (mode : WaveformMode) (maxSC : ℕ) (p : WaveformPeak) : ℚ × ℚ :=
  (match mode with
    | .count => if 0 < maxSC then (p.count : ℚ) / (maxSC : ℚ) else 1
    | .weight => (p.weight - 1/100) / (2 - 1/100))
  |> fun ratio =>
    (p.x * (svgWidth - 2 * svgPadding) + svgPadding,
     (1 - ratio) * (svgHeight - 2 * svgPadding) + svgPadding)

/-- The screen point of one base peak (`generateBasePath` lines 120-127 and
146-153): count mode always uses the original `sampleCount`; weight mode draws
the baseline `weight = 1.0` for every peak. -/
def basePeakPoint (mode : WaveformMode) (maxSC : ℕ) (p : BasePeak) : ℚ × ℚ :=
  (match mode with
    | .count => if 0 < maxSC then (p.sampleCount : ℚ) / (maxSC : ℚ) else 1
    | .weight => ((1 : ℚ) - 1/100) / (2 - 1/100))
  |> fun ratio =>
    (p.x * (svgWidth - 2 * svgPadding) + svgPadding,
     (1 - ratio) * (svgHeight - 2 * svgPadding) + svgPadding)

/-- The point list of `generateUserPath`. -/
def userPathPoints (baseData : BaseWaveform) (userData : Waveform)
    (mode : WaveformMode) : List (ℚ × ℚ) :=
  userData.peaks.map (userPeakPoint mode (maxSampleCount baseData.peaks))

/-- The point list of `generateBasePath`. -/
def basePathPoints (baseData : BaseWaveform) (mode : WaveformMode) : List (ℚ × ℚ) :=
  baseData.peaks.map (basePeakPoint mode (maxSampleCount baseData.peaks))

/-- The cubic segments appended for every consecutive pair of points:
`path += " C prev.x+dx,prev.y curr.x-dx,curr.y curr.x,curr.y"` with
`dx = (curr.x - prev.x) / 3`. -/
def bezierSegments : ℚ × ℚ → List (ℚ × ℚ) → String
  | _, [] => ""
  | prev, curr :: rest =>
    ((curr.1 - prev.1) / 3) |> fun dx =>
      " C " ++ toString (prev.1 + dx) ++ "," ++ toString prev.2 ++ " " ++
        toString (curr.1 - dx) ++ "," ++ toString curr.2 ++ " " ++
        toString curr.1 ++ "," ++ toString curr.2 ++
        bezierSegments curr rest

/-- `M first.x first.y` followed by the C-segments; `""` on no points. -/
def pathString : List (ℚ × ℚ) → String
  | [] => ""
  | p0 :: rest =>
      "M " ++ toString p0.1 ++ " " ++ toString p0.2 ++ bezierSegments p0 rest

/-- `generateUserPath()`: a pure function of the current mode and peak data. -/
def generateUserPath (baseData : BaseWaveform) (userData : Waveform)
    (mode : WaveformMode) : String :=
  pathString (userPathPoints baseData userData mode)

/-- `generateBasePath()`: a pure function of the current mode and base data. -/
def generateBasePath (baseData : BaseWaveform) (mode : WaveformMode) : String :=
  pathString (basePathPoints baseData mode)

/-! ## Shared helper lemmas -/

theorem jsRound_nonneg {q : ℚ} (h : 0 ≤ q) : 0 ≤ jsRound q := by
  have : (0 : ℚ) ≤ q + 1/2 := by linarith
  exact Int.le_floor.mpr (by exact_mod_cast this)

theorem dragRatio_nonneg (y : ℚ) : 0 ≤ dragRatio y := le_max_left _ _

theorem dragRatio_le_one (y : ℚ) : dragRatio y ≤ 1 :=
  max_le (by norm_num) (min_le_left _ _)

theorem dragRatio_of_neg {y : ℚ}
    (h : 1 - (y - svgPadding) / (svgHeight - 2 * svgPadding) < 0) : dragRatio y = 0 := by
  unfold dragRatio
  rw [min_eq_right (le_of_lt (lt_of_lt_of_le h (by norm_num)))]
  exact max_eq_left (le_of_lt h)

theorem toFixed2_ge_hundredth {q : ℚ} (h : 1/100 ≤ q) : 1/100 ≤ toFixed2 q := by
  unfold toFixed2 jsRound
  have h1 : (1 : ℤ) ≤ Int.floor (q * 100 + 1/2) := by
    apply Int.le_floor.mpr
    push_cast
    linarith
  have h2 : (1 : ℚ) ≤ (Int.floor (q * 100 + 1/2) : ℚ) := by exact_mod_cast h1
  linarith

theorem toFixed2_le_two {q : ℚ} (h : q ≤ 2) : toFixed2 q ≤ 2 := by
  unfold toFixed2 jsRound
  have h1 : Int.floor (q * 100 + 1/2) ≤ (200 : ℤ) := by
    have h0 : q * 100 + 1/2 < (((200 : ℤ) + 1 : ℤ) : ℚ) := by push_cast; linarith
    exact Int.lt_add_one_iff.mp (Int.floor_lt.mpr h0)
  have h2 : ((Int.floor (q * 100 + 1/2)) : ℚ) ≤ 200 := by exact_mod_cast h1
  linarith

/-! ## Claims -/

/-- C1: every count-mode adjustment produced by the drag handler — for any
cursor position `y`, including positions outside the drawing area — yields a
selected count (an integer by construction: `Math.round` then `Math.min`)
clamped into `[0, sampleCount]` of the dragged peak's base cluster; a value
that would exceed `sampleCount` becomes exactly `sampleCount`, and a cursor
position whose raw (unclamped) ratio is negative yields exactly `0`, never a
wrapped magnitude. -/
theorem drag_count_adjustment_clamped (y : ℚ) (basePeaks : List BasePeak)
    (draggingPeak : ℤ) (peak : WaveformPeak) (basePeak : BasePeak)
    (hid : peak.id = draggingPeak)
    (hfind : basePeaks.find? (fun p => p.id == peak.id) = some basePeak) :
    (0 ≤ (adjustPeakCount y basePeaks draggingPeak peak).count ∧
      (adjustPeakCount y basePeaks draggingPeak peak).count ≤ (basePeak.sampleCount : ℤ)) ∧
    ((basePeak.sampleCount : ℤ) < jsRound (dragRatio y * (maxSampleCount basePeaks : ℚ)) →
      (adjustPeakCount y basePeaks draggingPeak peak).count = (basePeak.sampleCount : ℤ)) ∧
    (1 - (y - svgPadding) / (svgHeight - 2 * svgPadding) < 0 →
      (adjustPeakCount y basePeaks draggingPeak peak).count = 0) := by
  have hc : (adjustPeakCount y basePeaks draggingPeak peak).count
      = waveformDragCount y (maxSampleCount basePeaks) basePeak.sampleCount := by
    unfold adjustPeakCount
    rw [if_pos hid, hfind]
  refine ⟨⟨?_, ?_⟩, ?_, ?_⟩
  · rw [hc]
    exact le_min (jsRound_nonneg (mul_nonneg (dragRatio_nonneg y) (by positivity)))
      (by exact_mod_cast Nat.zero_le _)
  · rw [hc]; exact min_le_right _ _
  · intro hlt
    rw [hc]
    exact min_eq_right (le_of_lt hlt)
  · intro hneg
    rw [hc]
    unfold waveformDragCount
    rw [dragRatio_of_neg hneg]
    simp [jsRound]
    norm_num

/-- C1 witness: a concrete drag on peak 1 with base sample count 10. -/
theorem drag_count_adjustment_clamped_witness :
    ((⟨1, 0, 5, 1⟩ : WaveformPeak).id = 1 ∧
      ([(⟨1, 0, 10, 1, 10⟩ : BasePeak)].find?
        (fun p => p.id == (⟨1, 0, 5, 1⟩ : WaveformPeak).id) = some ⟨1, 0, 10, 1, 10⟩)) ∧
    ((0 ≤ (adjustPeakCount 0 [⟨1, 0, 10, 1, 10⟩] 1 ⟨1, 0, 5, 1⟩).count ∧
      (adjustPeakCount 0 [⟨1, 0, 10, 1, 10⟩] 1 ⟨1, 0, 5, 1⟩).count ≤ ((10 : ℕ) : ℤ)) ∧
    (((10 : ℕ) : ℤ) < jsRound (dragRatio 0 * (maxSampleCount [⟨1, 0, 10, 1, 10⟩] : ℚ)) →
      (adjustPeakCount 0 [⟨1, 0, 10, 1, 10⟩] 1 ⟨1, 0, 5, 1⟩).count = ((10 : ℕ) : ℤ)) ∧
    (1 - ((0 : ℚ) - svgPadding) / (svgHeight - 2 * svgPadding) < 0 →
      (adjustPeakCount 0 [⟨1, 0, 10, 1, 10⟩] 1 ⟨1, 0, 5, 1⟩).count = 0)) :=
  ⟨⟨rfl, by decide⟩,
    drag_count_adjustment_clamped 0 [⟨1, 0, 10, 1, 10⟩] 1 ⟨1, 0, 5, 1⟩ ⟨1, 0, 10, 1, 10⟩
      rfl (by decide)⟩

/-- C2 counterexample: the program's weight-adjustment paths do not apply one
uniform minimum.  The terrain path (`updateHillHeight`/`handleHeightChange`)
clamps the height at `0` and so produces the weight `0` (here: drag to height
`-5` on a hill of original height `10`), strictly below `0.01` — while the
waveform drag path clamps every weight up to at least `0.01` (here: a cursor
far below the drawing area still yields `0.01`). -/
theorem weight_minimum_not_uniform_cex :
    hillAdjustedWeight (-5) 10 = 0 ∧ waveformDragWeight 1000000 = 1/100 ∧
      hillAdjustedWeight (-5) 10 < 1/100 := by
  norm_num [hillAdjustedWeight, hillClampedHeight, waveformDragWeight, toFixed2,
    jsRound, dragRatio, svgHeight, svgPadding, min_def, max_def]

/-- C2 amended: every weight-mode adjustment stays within the declared band
`[weightMin, weightMax] = [0, 2]`, but the two adjustment paths clamp to
different minima — the waveform drag handler produces weights in `[0.01, 2]`
(even after `toFixed(2)` rounding), while the terrain height handlers produce
weights in `[0, 2]` and can reach exactly `0`. -/
theorem weight_adjustment_bounds (y newHeight originalHeight : ℚ)
    (h : 0 < originalHeight) :
    (1/100 ≤ waveformDragWeight y ∧ waveformDragWeight y ≤ 2) ∧
    (0 ≤ hillAdjustedWeight newHeight originalHeight ∧
      hillAdjustedWeight newHeight originalHeight ≤ 2) := by
  refine ⟨⟨?_, ?_⟩, ?_, ?_⟩
  · exact toFixed2_ge_hundredth (le_max_left _ _)
  · exact toFixed2_le_two (max_le (by norm_num) (min_le_left _ _))
  · exact div_nonneg (le_max_left _ _) (le_of_lt h)
  · rw [hillAdjustedWeight, div_le_iff₀ h]
    exact max_le (by positivity) (by rw [mul_comm]; exact min_le_right _ _)

/-- C2 witness: the amended bounds at a concrete drag position and a concrete
hill. -/
theorem weight_adjustment_bounds_witness :
    (0 : ℚ) < 10 ∧
    ((1/100 ≤ waveformDragWeight 350 ∧ waveformDragWeight 350 ≤ 2) ∧
      (0 ≤ hillAdjustedWeight 25 10 ∧ hillAdjustedWeight 25 10 ≤ 2)) :=
  ⟨by norm_num, weight_adjustment_bounds 350 25 10 (by norm_num)⟩

/-- C7: neither drag-adjustment operation changes any cluster's `sampleCount`
or the dataset's total-point bookkeeping — the count branch and the weight
branch of `handleMouseMove` keep `totalPoints` (they rebuild only `peaks`),
and `updateHillHeight` keeps every hill's `sampleCount` and the stored
`metrics.totalPoints`; hence `Σ sampleCount + noiseCount = totalPoints` holds
after an adjustment exactly when it held before. -/
theorem adjustments_preserve_totals (y : ℚ) (baseData : BaseWaveform)
    (userData : Waveform) (draggingPeak : ℤ) (expFn sqrtFn : ℚ → ℚ)
    (terrainData : TerrainData) (hillId : ℤ) (newHeight : ℚ) (noiseCount : ℕ) :
    (handleMouseMoveCount y baseData userData draggingPeak).totalPoints
      = userData.totalPoints ∧
    (handleMouseMoveWeight y userData draggingPeak).totalPoints
      = userData.totalPoints ∧
    ((updateHillHeight expFn sqrtFn terrainData hillId newHeight).hills.map Hill.sampleCount
      = terrainData.hills.map Hill.sampleCount) ∧
    ((updateHillHeight expFn sqrtFn terrainData hillId newHeight).metrics.totalPoints
      = terrainData.metrics.totalPoints) ∧
    ((((updateHillHeight expFn sqrtFn terrainData hillId newHeight).hills.map
          Hill.sampleCount).sum + noiseCount
        = (updateHillHeight expFn sqrtFn terrainData hillId newHeight).metrics.totalPoints) ↔
      ((terrainData.hills.map Hill.sampleCount).sum + noiseCount
        = terrainData.metrics.totalPoints)) := by
  have h3 : (updateHillHeight expFn sqrtFn terrainData hillId newHeight).hills.map
      Hill.sampleCount = terrainData.hills.map Hill.sampleCount := by
    show (terrainData.hills.map _).map Hill.sampleCount = _
    rw [List.map_map]
    apply List.map_congr_left
    intro hill _
    by_cases hcase : hill.id = hillId <;> simp [hcase]
  have h4 : (updateHillHeight expFn sqrtFn terrainData hillId newHeight).metrics.totalPoints
      = terrainData.metrics.totalPoints := rfl
  exact ⟨rfl, rfl, h3, h4, by rw [h3, h4]⟩

/-! Helper lemmas about `mapIdxFrom` and the grid fold. -/

theorem mapIdxFrom_length (f : ℕ → α → β) : ∀ (i : ℕ) (l : List α),
    (mapIdxFrom f i l).length = l.length
  | _, [] => rfl
  | i, _ :: t => by simp [mapIdxFrom, mapIdxFrom_length f (i + 1) t]

theorem mem_mapIdxFrom {f : ℕ → α → β} {b : β} :
    ∀ (i : ℕ) (l : List α), b ∈ mapIdxFrom f i l →
      ∃ j a, j < l.length ∧ a ∈ l ∧ b = f (i + j) a
  | _, [], h => absurd h (List.not_mem_nil b)
  | i, a :: t, h => by
    rcases List.mem_cons.mp h with h1 | h2
    · exact ⟨0, a, Nat.succ_pos _, List.mem_cons_self a t, by simpa using h1⟩
    · obtain ⟨j, c, hj, hc, hb⟩ := mem_mapIdxFrom (i + 1) t h2
      exact ⟨j + 1, c, by simp only [List.length_cons]; omega, List.mem_cons_of_mem a hc,
        by rw [hb]; congr 1; omega⟩

theorem hillContribution_nonneg (expFn sqrtFn : ℚ → ℚ) (gridSize : ℕ) (hill : Hill)
    (x z : ℕ) (hexp : ∀ q, 0 ≤ expFn q) (hh : 0 ≤ hill.height) :
    0 ≤ hillContribution expFn sqrtFn gridSize hill x z :=
  mul_nonneg hh (hexp _)

theorem addHillContribution_dims (expFn sqrtFn : ℚ → ℚ) (gridSize : ℕ) (hill : Hill)
    (g : List (List ℚ)) :
    (addHillContribution expFn sqrtFn gridSize hill g).length = g.length ∧
    (∀ row2 ∈ addHillContribution expFn sqrtFn gridSize hill g,
      ∃ row ∈ g, row2.length = row.length) := by
  constructor
  · exact mapIdxFrom_length _ 0 g
  · intro row2 hrow2
    obtain ⟨_, row, _, hrow, hb⟩ := mem_mapIdxFrom 0 g hrow2
    exact ⟨row, hrow, by rw [hb]; exact mapIdxFrom_length _ 0 row⟩

theorem addHillContribution_nonneg (expFn sqrtFn : ℚ → ℚ) (gridSize : ℕ) (hill : Hill)
    (g : List (List ℚ)) (hexp : ∀ q, 0 ≤ expFn q) (hh : 0 ≤ hill.height)
    (hg : ∀ row ∈ g, ∀ v ∈ row, 0 ≤ v) :
    ∀ row2 ∈ addHillContribution expFn sqrtFn gridSize hill g, ∀ v2 ∈ row2, 0 ≤ v2 := by
  intro row2 hrow2 v2 hv2
  obtain ⟨_, row, _, hrow, hb⟩ := mem_mapIdxFrom 0 g hrow2
  rw [hb] at hv2
  obtain ⟨_, v, _, hv, hb2⟩ := mem_mapIdxFrom 0 row hv2
  rw [hb2]
  exact add_nonneg (hg row hrow v hv)
    (hillContribution_nonneg expFn sqrtFn gridSize hill _ _ hexp hh)

theorem heightDataFold_dims (expFn sqrtFn : ℚ → ℚ) (gridSize : ℕ) :
    ∀ (hills : List Hill) (g : List (List ℚ)),
      g.length = gridSize → (∀ row ∈ g, row.length = gridSize) →
      ((hills.foldl (fun hd hill => addHillContribution expFn sqrtFn gridSize hill hd) g).length
          = gridSize ∧
        ∀ row ∈ hills.foldl (fun hd hill => addHillContribution expFn sqrtFn gridSize hill hd) g,
          row.length = gridSize)
  | [], _, h1, h2 => ⟨h1, h2⟩
  | hill :: t, g, h1, h2 => by
    rw [List.foldl_cons]
    refine heightDataFold_dims expFn sqrtFn gridSize t _ ?_ ?_
    · rw [(addHillContribution_dims expFn sqrtFn gridSize hill g).1, h1]
    · intro row2 hrow2
      obtain ⟨row, hrow, hlen⟩ :=
        (addHillContribution_dims expFn sqrtFn gridSize hill g).2 row2 hrow2
      rw [hlen]; exact h2 row hrow

theorem heightDataFold_nonneg (expFn sqrtFn : ℚ → ℚ) (gridSize : ℕ)
    (hexp : ∀ q, 0 ≤ expFn q) :
    ∀ (hills : List Hill) (g : List (List ℚ)),
      (∀ hill ∈ hills, 0 ≤ hill.height) → (∀ row ∈ g, ∀ v ∈ row, 0 ≤ v) →
      ∀ row ∈ hills.foldl (fun hd hill => addHillContribution expFn sqrtFn gridSize hill hd) g,
        ∀ v ∈ row, 0 ≤ v
  | [], _, _, hg, row, hrow, v, hv => hg row hrow v hv
  | hill :: t, g, hh, hg, row, hrow, v, hv => by
    rw [List.foldl_cons] at hrow
    exact heightDataFold_nonneg expFn sqrtFn gridSize hexp t _
      (fun h2 hm => hh h2 (List.mem_cons_of_mem hill hm))
      (addHillContribution_nonneg expFn sqrtFn gridSize hill g hexp
        (hh hill (List.mem_cons_self hill t)) hg)
      row hrow v hv

/-- C10: `generateHeightData` always returns a `gridSize × gridSize` matrix;
when every hill's height is nonnegative (each cell is a sum of Gaussian
contributions `height * exp(...)` with `exp ≥ 0`, here abstracted as a
nonnegative `expFn`) and every radius is positive, every cell is nonnegative;
and with no hills the grid is all zeros. -/
theorem generateHeightData_spec (expFn sqrtFn : ℚ → ℚ) (hills : List Hill)
    (gridSize : ℕ) :
    (generateHeightData expFn sqrtFn hills gridSize).length = gridSize ∧
    (∀ row ∈ generateHeightData expFn sqrtFn hills gridSize, row.length = gridSize) ∧
    ((∀ q, 0 ≤ expFn q) → (∀ hill ∈ hills, 0 ≤ hill.height ∧ 0 < hill.radius) →
      ∀ row ∈ generateHeightData expFn sqrtFn hills gridSize, ∀ v ∈ row, 0 ≤ v) ∧
    generateHeightData expFn sqrtFn [] gridSize
      = List.replicate gridSize (List.replicate gridSize 0) := by
  have hinit1 : (List.replicate gridSize (List.replicate gridSize (0:ℚ))).length = gridSize :=
    List.length_replicate _ _
  have hinit2 : ∀ row ∈ List.replicate gridSize (List.replicate gridSize (0:ℚ)),
      row.length = gridSize := by
    intro row hrow
    rw [(List.eq_of_mem_replicate hrow)]
    exact List.length_replicate _ _
  obtain ⟨hd1, hd2⟩ := heightDataFold_dims expFn sqrtFn gridSize hills _ hinit1 hinit2
  refine ⟨hd1, hd2, ?_, rfl⟩
  intro hexp hhills
  exact heightDataFold_nonneg expFn sqrtFn gridSize hexp hills _
    (fun hill hm => (hhills hill hm).1)
    (by
      intro row hrow v hv
      rw [List.eq_of_mem_replicate hrow] at hv
      rw [List.eq_of_mem_replicate hv])


/-- C10 witness: a concrete one-hill terrain on a `2 × 2` grid with the
constant-one stand-ins for `exp` and `sqrt`. -/
theorem generateHeightData_spec_witness :
    ((∀ q : ℚ, 0 ≤ (fun _ : ℚ => (1:ℚ)) q) ∧
      (∀ hill ∈ [(⟨1, (0, 0), 1, 1, 1, 1, 1⟩ : Hill)], 0 ≤ hill.height ∧ 0 < hill.radius)) ∧
    ((generateHeightData (fun _ => 1) (fun _ => 1) [⟨1, (0, 0), 1, 1, 1, 1, 1⟩] 2).length = 2 ∧
      (∀ row ∈ generateHeightData (fun _ => 1) (fun _ => 1) [⟨1, (0, 0), 1, 1, 1, 1, 1⟩] 2,
        row.length = 2) ∧
      ((∀ q, 0 ≤ (fun _ : ℚ => (1:ℚ)) q) →
        (∀ hill ∈ [(⟨1, (0, 0), 1, 1, 1, 1, 1⟩ : Hill)], 0 ≤ hill.height ∧ 0 < hill.radius) →
        ∀ row ∈ generateHeightData (fun _ => 1) (fun _ => 1) [⟨1, (0, 0), 1, 1, 1, 1, 1⟩] 2,
          ∀ v ∈ row, 0 ≤ v) ∧
      generateHeightData (fun _ : ℚ => (1:ℚ)) (fun _ => 1) [] 2
        = List.replicate 2 (List.replicate 2 0)) :=
  ⟨⟨fun _ => by norm_num, by
      intro hill hm
      rw [List.mem_singleton] at hm
      subst hm
      exact ⟨by norm_num, by norm_num⟩⟩,
    generateHeightData_spec (fun _ => 1) (fun _ => 1) [⟨1, (0, 0), 1, 1, 1, 1, 1⟩] 2⟩

/-- C9: waveform peak-height normalization is presentation-only.  The path
generators are pure functions of the peak data (the source performs no state
write while rendering), and for every peak: in count mode the rendered height
ratio is the peak's current `count` divided by the maximum `sampleCount`
across all base clusters (whenever that maximum is positive), in weight mode
it is `(weight − 0.01) / (2 − 0.01)` against the fixed band, and the base path
uses the original `sampleCount` the same way. -/
theorem render_normalization_presentation_only (baseData : BaseWaveform)
    (userData : Waveform) (hmax : 0 < maxSampleCount baseData.peaks) :
    (userPathPoints baseData userData .count
      = userData.peaks.map (fun p =>
          (p.x * (svgWidth - 2 * svgPadding) + svgPadding,
           (1 - (p.count : ℚ) / (maxSampleCount baseData.peaks : ℚ))
             * (svgHeight - 2 * svgPadding) + svgPadding))) ∧
    (userPathPoints baseData userData .weight
      = userData.peaks.map (fun p =>
          (p.x * (svgWidth - 2 * svgPadding) + svgPadding,
           (1 - (p.weight - 1/100) / (2 - 1/100))
             * (svgHeight - 2 * svgPadding) + svgPadding))) ∧
    (basePathPoints baseData .count
      = baseData.peaks.map (fun p =>
          (p.x * (svgWidth - 2 * svgPadding) + svgPadding,
           (1 - (p.sampleCount : ℚ) / (maxSampleCount baseData.peaks : ℚ))
             * (svgHeight - 2 * svgPadding) + svgPadding))) ∧
    generateUserPath baseData userData .count
      = pathString (userPathPoints baseData userData .count) := by
  refine ⟨?_, rfl, ?_, rfl⟩
  · apply List.map_congr_left
    intro p _
    simp [userPeakPoint, if_pos hmax]
  · apply List.map_congr_left
    intro p _
    simp [basePeakPoint, if_pos hmax]

/-- C9 witness: a concrete base waveform whose maximum sample count is `10`. -/
theorem render_normalization_presentation_only_witness :
    0 < maxSampleCount [(⟨1, 0, 10, 1, 10⟩ : BasePeak)] ∧
    (userPathPoints ⟨[⟨1, 0, 10, 1, 10⟩], 10⟩ ⟨[⟨1, 0, 5, 1⟩], 10⟩ .count
      = [(⟨1, 0, 5, 1⟩ : WaveformPeak)].map (fun p =>
          (p.x * (svgWidth - 2 * svgPadding) + svgPadding,
           (1 - (p.count : ℚ) / (maxSampleCount [(⟨1, 0, 10, 1, 10⟩ : BasePeak)] : ℚ))
             * (svgHeight - 2 * svgPadding) + svgPadding))) ∧
    (userPathPoints ⟨[⟨1, 0, 10, 1, 10⟩], 10⟩ ⟨[⟨1, 0, 5, 1⟩], 10⟩ .weight
      = [(⟨1, 0, 5, 1⟩ : WaveformPeak)].map (fun p =>
          (p.x * (svgWidth - 2 * svgPadding) + svgPadding,
           (1 - (p.weight - 1/100) / (2 - 1/100))
             * (svgHeight - 2 * svgPadding) + svgPadding))) ∧
    (basePathPoints ⟨[⟨1, 0, 10, 1, 10⟩], 10⟩ .count
      = [(⟨1, 0, 10, 1, 10⟩ : BasePeak)].map (fun p =>
          (p.x * (svgWidth - 2 * svgPadding) + svgPadding,
           (1 - (p.sampleCount : ℚ) / (maxSampleCount [(⟨1, 0, 10, 1, 10⟩ : BasePeak)] : ℚ))
             * (svgHeight - 2 * svgPadding) + svgPadding))) ∧
    generateUserPath ⟨[⟨1, 0, 10, 1, 10⟩], 10⟩ ⟨[⟨1, 0, 5, 1⟩], 10⟩ .count
      = pathString (userPathPoints ⟨[⟨1, 0, 10, 1, 10⟩], 10⟩ ⟨[⟨1, 0, 5, 1⟩], 10⟩ .count) :=
  ⟨by decide,
    render_normalization_presentation_only ⟨[⟨1, 0, 10, 1, 10⟩], 10⟩ ⟨[⟨1, 0, 5, 1⟩], 10⟩
      (by decide)⟩

/-! Helper lemmas for the Gini formula. -/

theorem giniCumsum_eq_sum (l : List ℚ) : ∀ k : ℕ,
    giniCumsum k l = ∑ i ∈ Finset.range l.length, ((k : ℚ) + (i : ℚ) + 1) * l.getD i 0 := by
  induction l with
  | nil => intro k; simp [giniCumsum]
  | cons a t ih =>
    intro k
    rw [giniCumsum, ih (k + 1),
      show (a :: t).length = t.length + 1 from rfl, Finset.sum_range_succ']
    simp only [List.getD_cons_zero, List.getD_cons_succ, Nat.cast_zero, add_zero]
    rw [add_comm (((k : ℚ) + 1) * a)]
    congr 1
    apply Finset.sum_congr rfl
    intro i _
    push_cast
    ring

theorem list_sum_eq_sum_getD (l : List ℚ) :
    l.sum = ∑ i ∈ Finset.range l.length, l.getD i 0 := by
  induction l with
  | nil => simp
  | cons a t ih =>
    rw [List.sum_cons, ih,
      show (a :: t).length = t.length + 1 from rfl, Finset.sum_range_succ']
    simp [List.getD_cons_zero, List.getD_cons_succ, add_comm]

theorem sum_range_add_one (n : ℕ) :
    (∑ i ∈ Finset.range n, ((i : ℚ) + 1)) = n * (n + 1) / 2 := by
  induction n with
  | zero => simp
  | succ m ih =>
    rw [Finset.sum_range_succ, ih]
    push_cast
    ring

/-- Chebyshev's sum inequality specialised to a sorted list: the index weights
`i + 1` and the sorted values monovary, so
`(n * (n+1) / 2) * Σ v ≤ n * Σ (i+1) vᵢ`. -/
theorem sorted_cumsum_lower {s : List ℚ} (hs : s.Sorted (· ≤ ·)) :
    ((s.length : ℚ) * ((s.length : ℚ) + 1) / 2) * s.sum
      ≤ (s.length : ℚ) * giniCumsum 0 s := by
  have hmono : MonovaryOn (fun i : ℕ => (i : ℚ) + 1) (fun i => s.getD i 0)
      (Finset.range s.length) := by
    intro i hi j hj hg
    simp only [Finset.mem_coe, Finset.mem_range] at hi hj
    have hij : i ≤ j := by
      by_contra hcon
      have hle : j ≤ i := le_of_not_le hcon
      have hrel : s.getD j 0 ≤ s.getD i 0 := by
        rw [List.getD_eq_getElem s 0 hj, List.getD_eq_getElem s 0 hi]
        exact hs.rel_get_of_le (show (⟨j, hj⟩ : Fin s.length) ≤ ⟨i, hi⟩ from hle)
      exact absurd hrel (not_le.mpr hg)
    show (i : ℚ) + 1 ≤ (j : ℚ) + 1
    have h2 : (i : ℚ) ≤ (j : ℚ) := by exact_mod_cast hij
    linarith
  have cheb := hmono.sum_mul_sum_le_card_mul_sum
  rw [Finset.card_range, sum_range_add_one, ← list_sum_eq_sum_getD] at cheb
  rw [giniCumsum_eq_sum s 0]
  simp only [Nat.cast_zero, zero_add]
  exact cheb

theorem sorted_cumsum_upper {s : List ℚ} (hnn : ∀ x ∈ s, 0 ≤ x) :
    giniCumsum 0 s ≤ (s.length : ℚ) * s.sum := by
  rw [giniCumsum_eq_sum s 0, list_sum_eq_sum_getD, Finset.mul_sum]
  apply Finset.sum_le_sum
  intro i hi
  simp only [Finset.mem_range] at hi
  have hmem : s.getD i 0 ∈ s := by
    rw [List.getD_eq_getElem s 0 hi]
    exact List.get_mem s i hi
  apply mul_le_mul_of_nonneg_right _ (hnn _ hmem)
  have h1 : (i : ℚ) + 1 ≤ (s.length : ℚ) := by exact_mod_cast Nat.succ_le_of_lt hi
  push_cast
  linarith

theorem giniOfSorted_bounds {s : List ℚ} (hs : s.Sorted (· ≤ ·))
    (hnn : ∀ x ∈ s, 0 ≤ x) : 0 ≤ giniOfSorted s ∧ giniOfSorted s ≤ 1 := by
  unfold giniOfSorted
  by_cases hdeg : (s.length : ℚ) = 0 ∨ s.sum = 0
  · rw [if_pos hdeg]; norm_num
  · rw [if_neg hdeg]
    push_neg at hdeg
    obtain ⟨hn0, hS0⟩ := hdeg
    have hn : (0 : ℚ) < (s.length : ℚ) := by
      rcases Nat.eq_zero_or_pos s.length with h | h
      · exact absurd (by exact_mod_cast h) hn0
      · exact_mod_cast h
    have hS : (0 : ℚ) < s.sum :=
      lt_of_le_of_ne (List.sum_nonneg hnn) (Ne.symm hS0)
    have hnS : (0 : ℚ) < (s.length : ℚ) * s.sum := mul_pos hn hS
    have hlow := sorted_cumsum_lower hs
    have hup := sorted_cumsum_upper hnn
    have hkey : ((s.length : ℚ) + 1) * s.sum ≤ 2 * giniCumsum 0 s := by
      have h2 : (s.length : ℚ) * (((s.length : ℚ) + 1) * s.sum)
          ≤ (s.length : ℚ) * (2 * giniCumsum 0 s) := by nlinarith
      exact le_of_mul_le_mul_left h2 hn
    constructor
    · rw [sub_nonneg, div_le_div_iff₀ hn hnS]
      nlinarith
    · rw [sub_le_iff_le_add]
      have h1 : 2 * giniCumsum 0 s / ((s.length : ℚ) * s.sum) ≤ 2 := by
        rw [div_le_iff₀ hnS]
        nlinarith
      have h2 : (1 : ℚ) ≤ ((s.length : ℚ) + 1) / (s.length : ℚ) := by
        rw [le_div_iff₀ hn]
        linarith
      linarith

/-- C4: `computeGini` returns the defined value `0`, taking the guarded branch
rather than dividing by zero, on every degenerate input: the empty sequence
and any all-zero sequence. -/
theorem computeGini_degenerate (l : List ℚ) (hz : ∀ x ∈ l, x = 0) :
    computeGini [] = 0 ∧ computeGini l = 0 := by
  constructor
  · rfl
  · unfold computeGini giniOfSorted
    rw [if_pos]
    right
    rw [(l.perm_insertionSort (· ≤ ·)).sum_eq]
    exact List.sum_eq_zero hz

/-- C4 witness: the all-zero two-element list. -/
theorem computeGini_degenerate_witness :
    (∀ x ∈ ([0, 0] : List ℚ), x = 0) ∧
      (computeGini [] = 0 ∧ computeGini [0, 0] = 0) :=
  ⟨by intro x hx; fin_cases hx <;> norm_num,
    computeGini_degenerate [0, 0] (by intro x hx; fin_cases hx <;> norm_num)⟩

/-- C5: `computeGini` equals the spec's sorted-ascending discrete Gini
estimator `(2 Σ i·vᵢ) / (n Σ vᵢ) − (n+1)/n` on every nonempty nonnegative
sequence with positive total (where the estimator is defined), and on
`[90, 10]` it returns exactly `0.4 = 2/5`. -/
theorem computeGini_eq_estimator (l : List ℚ) (hne : l ≠ [])
    (hnn : ∀ x ∈ l, 0 ≤ x) (hsum : 0 < l.sum) :
    computeGini l = giniEstimatorSpec l ∧ computeGini [90, 10] = 2/5 := by
  constructor
  · unfold computeGini giniEstimatorSpec giniOfSorted
    rw [if_neg]
    · rw [giniCumsum_eq_sum _ 0]
      simp only [Nat.cast_zero, zero_add]
    · push_neg
      constructor
      · have : (l.insertionSort (· ≤ ·)).length = l.length :=
          (l.perm_insertionSort (· ≤ ·)).length_eq
        rw [this]
        exact_mod_cast List.length_pos.mpr hne |>.ne'
      · rw [(l.perm_insertionSort (· ≤ ·)).sum_eq]
        exact hsum.ne'
  · norm_num [computeGini, giniOfSorted, giniCumsum, List.insertionSort,
      List.orderedInsert]

/-- C5 witness: the spec's concrete scenario `[90, 10]`. -/
theorem computeGini_eq_estimator_witness :
    (([90, 10] : List ℚ) ≠ [] ∧ (∀ x ∈ ([90, 10] : List ℚ), 0 ≤ x) ∧
      (0 : ℚ) < ([90, 10] : List ℚ).sum) ∧
    (computeGini [90, 10] = giniEstimatorSpec [90, 10] ∧ computeGini [90, 10] = 2/5) :=
  ⟨⟨List.cons_ne_nil _ _, by intro x hx; fin_cases hx <;> norm_num,
      by norm_num⟩,
    computeGini_eq_estimator [90, 10] (List.cons_ne_nil _ _)
      (by intro x hx; fin_cases hx <;> norm_num) (by norm_num)⟩

/-- C6: Gini bounds — `0 ≤ computeGini l ≤ 1` for every nonempty sequence of
nonnegative numbers, and `computeGini [v, v, v] = 0` for every equal repeated
value `v ≥ 0`, including `v = 0`. -/
theorem computeGini_bounds (l : List ℚ) (hne : l ≠ []) (hnn : ∀ x ∈ l, 0 ≤ x)
    (v : ℚ) (hv : 0 ≤ v) :
    (0 ≤ computeGini l ∧ computeGini l ≤ 1) ∧ computeGini [v, v, v] = 0 := by
  constructor
  · unfold computeGini
    apply giniOfSorted_bounds (List.sorted_insertionSort _ l)
    intro x hx
    exact hnn x ((l.perm_insertionSort (· ≤ ·)).mem_iff.mp hx)
  · have hsort : (([v, v, v] : List ℚ).insertionSort (· ≤ ·)) = [v, v, v] := by
      simp [List.insertionSort, List.orderedInsert, le_refl]
    unfold computeGini giniOfSorted
    rw [hsort]
    rcases eq_or_lt_of_le hv with h0 | hpos
    · rw [if_pos]
      right
      simp [← h0]
    · rw [if_neg]
      · show 2 * giniCumsum 0 [v, v, v] / _ - _ = 0
        have hc : giniCumsum 0 [v, v, v] = 6 * v := by
          simp [giniCumsum]
          ring
        rw [hc]
        show 2 * (6 * v) / ((3 : ℚ) * (v + (v + (v + 0)))) - ((3 : ℚ) + 1) / (3 : ℚ) = 0
        field_simp
        ring
      · push_neg
        refine ⟨by norm_num, ?_⟩
        show v + (v + (v + 0)) ≠ 0
        positivity

/-- C6 witness: the bounds at `[1, 2]` and the constant triple `[3, 3, 3]`. -/
theorem computeGini_bounds_witness :
    (([1, 2] : List ℚ) ≠ [] ∧ (∀ x ∈ ([1, 2] : List ℚ), 0 ≤ x) ∧ (0 : ℚ) ≤ 3) ∧
    ((0 ≤ computeGini [1, 2] ∧ computeGini [1, 2] ≤ 1) ∧ computeGini [3, 3, 3] = 0) :=
  ⟨⟨List.cons_ne_nil _ _, by intro x hx; fin_cases hx <;> norm_num,
      by norm_num⟩,
    computeGini_bounds [1, 2] (List.cons_ne_nil _ _)
      (by intro x hx; fin_cases hx <;> norm_num) 3 (by norm_num)⟩

/-- C3: count/weight reconciliation round-trip through the Adjustment Store.
Applying `selectedCount = k` (for `k` within `[0, sampleCount]` of a cluster
with `sampleCount > 0`) and reading back the weight yields exactly
`k / sampleCount` (exact rational arithmetic, so "within floating tolerance"
holds trivially); applying `weight = w` within `[weightMin, weightMax]` and
reading back the selected count yields `round(w * sampleCount)` clamped to
`[0, sampleCount]` — which, since the rounded value is nonnegative, is
`min (round (w * sampleCount)) sampleCount`, itself within
`[0, sampleCount]`. -/
theorem adjustment_roundtrip (c : Cluster) (k : ℤ) (w : ℚ)
    (hc : 0 < c.sampleCount) (hk0 : 0 ≤ k) (hk : k ≤ (c.sampleCount : ℤ))
    (hw0 : weightMin ≤ w) (hw2 : w ≤ weightMax) :
    (applyCountAdjustment c k).weight = (k : ℚ) / (c.sampleCount : ℚ) ∧
    ((applyWeightAdjustment c w).selectedCount
        = min (jsRound (w * (c.sampleCount : ℚ))) (c.sampleCount : ℤ) ∧
      0 ≤ (applyWeightAdjustment c w).selectedCount ∧
      (applyWeightAdjustment c w).selectedCount ≤ (c.sampleCount : ℤ)) := by
  have hcq : (0 : ℚ) < (c.sampleCount : ℚ) := by exact_mod_cast hc
  have hw0q : (0 : ℚ) ≤ w := le_trans (le_of_eq rfl) hw0
  have hclamp : max weightMin (min w weightMax) = w := by
    rw [min_eq_left hw2, max_eq_right hw0]
  have hround : 0 ≤ jsRound (w * (c.sampleCount : ℚ)) :=
    jsRound_nonneg (mul_nonneg hw0q (le_of_lt hcq))
  have hsel : (applyWeightAdjustment c w).selectedCount
      = min (jsRound (w * (c.sampleCount : ℚ))) (c.sampleCount : ℤ) := by
    show max 0 (min (jsRound (max weightMin (min w weightMax) * c.sampleCount))
        (c.sampleCount : ℤ)) = _
    rw [hclamp]
    exact max_eq_right (le_min hround (by exact_mod_cast Nat.zero_le _))
  refine ⟨?_, hsel, ?_, ?_⟩
  · show (if (c.sampleCount : ℚ) = 0 then 0
      else ((max 0 (min k (c.sampleCount : ℤ)) : ℤ) : ℚ) / (c.sampleCount : ℚ)) = _
    rw [if_neg hcq.ne', min_eq_left hk, max_eq_right hk0]
  · rw [hsel]
    exact le_min hround (by exact_mod_cast Nat.zero_le _)
  · rw [hsel]
    exact min_le_right _ _

/-- C3 witness: a cluster of 10 samples, count adjustment `k = 5` and weight
adjustment `w = 3/2`. -/
theorem adjustment_roundtrip_witness :
    (0 < (⟨10⟩ : Cluster).sampleCount ∧ (0 : ℤ) ≤ 5 ∧ (5 : ℤ) ≤ ((10 : ℕ) : ℤ) ∧
      weightMin ≤ (3/2 : ℚ) ∧ (3/2 : ℚ) ≤ weightMax) ∧
    ((applyCountAdjustment ⟨10⟩ 5).weight = ((5 : ℤ) : ℚ) / ((10 : ℕ) : ℚ) ∧
      ((applyWeightAdjustment ⟨10⟩ (3/2)).selectedCount
          = min (jsRound ((3/2 : ℚ) * ((10 : ℕ) : ℚ))) ((10 : ℕ) : ℤ) ∧
        0 ≤ (applyWeightAdjustment ⟨10⟩ (3/2)).selectedCount ∧
        (applyWeightAdjustment ⟨10⟩ (3/2)).selectedCount ≤ ((10 : ℕ) : ℤ))) :=
  ⟨⟨by norm_num, by norm_num, by norm_num, by norm_num [weightMin], by norm_num [weightMax]⟩,
    adjustment_roundtrip ⟨10⟩ 5 (3/2) (by norm_num) (by norm_num) (by norm_num)
      (by norm_num [weightMin]) (by norm_num [weightMax])⟩

/-! Helper lemmas about `listMin`, `listMax` and the evenly spaced layout. -/

theorem foldl_min_le_init (t : List ℚ) : ∀ q : ℚ, t.foldl min q ≤ q := by
  induction t with
  | nil => intro q; exact le_refl q
  | cons a t2 ih => intro q; exact le_trans (ih (min q a)) (min_le_left q a)

theorem foldl_min_le_mem (t : List ℚ) : ∀ q : ℚ, ∀ x ∈ t, t.foldl min q ≤ x := by
  induction t with
  | nil => intro q x hx; exact absurd hx (List.not_mem_nil x)
  | cons a t2 ih =>
    intro q x hx
    rcases List.mem_cons.mp hx with h | h
    · subst h
      exact le_trans (foldl_min_le_init t2 (min q x)) (min_le_right q x)
    · exact ih (min q a) x h

theorem listMin_le_mem : ∀ (l : List ℚ), ∀ x ∈ l, listMin l ≤ x
  | [], x, hx => absurd hx (List.not_mem_nil x)
  | q :: t, x, hx => by
    rcases List.mem_cons.mp hx with h | h
    · subst h; exact foldl_min_le_init t x
    · exact foldl_min_le_mem t q x h

theorem init_le_foldl_max (t : List ℚ) : ∀ q : ℚ, q ≤ t.foldl max q := by
  induction t with
  | nil => intro q; exact le_refl q
  | cons a t2 ih => intro q; exact le_trans (le_max_left q a) (ih (max q a))

theorem mem_le_foldl_max (t : List ℚ) : ∀ q : ℚ, ∀ x ∈ t, x ≤ t.foldl max q := by
  induction t with
  | nil => intro q x hx; exact absurd hx (List.not_mem_nil x)
  | cons a t2 ih =>
    intro q x hx
    rcases List.mem_cons.mp hx with h | h
    · subst h
      exact le_trans (le_max_right q x) (init_le_foldl_max t2 (max q x))
    · exact ih (max q a) x h

theorem mem_le_listMax : ∀ (l : List ℚ), ∀ x ∈ l, x ≤ listMax l
  | [], x, hx => absurd hx (List.not_mem_nil x)
  | q :: t, x, hx => by
    rcases List.mem_cons.mp hx with h | h
    · subst h; exact init_le_foldl_max t x
    · exact mem_le_foldl_max t q x h

theorem foldl_min_all_eq (t : List ℚ) (c : ℚ) (h : ∀ x ∈ t, x = c) :
    t.foldl min c = c := by
  induction t with
  | nil => rfl
  | cons a t2 ih =>
    rw [List.foldl_cons, h a (List.mem_cons_self a t2), min_self]
    exact ih fun x hx => h x (List.mem_cons_of_mem a hx)

theorem foldl_max_all_eq (t : List ℚ) (c : ℚ) (h : ∀ x ∈ t, x = c) :
    t.foldl max c = c := by
  induction t with
  | nil => rfl
  | cons a t2 ih =>
    rw [List.foldl_cons, h a (List.mem_cons_self a t2), max_self]
    exact ih fun x hx => h x (List.mem_cons_of_mem a hx)

theorem listMax_eq_listMin_all_eq (l : List ℚ) (c : ℚ) (h : ∀ x ∈ l, x = c) :
    listMax l = listMin l := by
  cases l with
  | nil => rfl
  | cons q t =>
    have ht : ∀ x ∈ t, x = c := fun x hx => h x (List.mem_cons_of_mem q hx)
    show t.foldl max q = t.foldl min q
    rw [h q (List.mem_cons_self q t), foldl_max_all_eq t c ht, foldl_min_all_eq t c ht]

theorem evenlySpacedByIds_bounds (ids : List ℤ) :
    ∀ p ∈ evenlySpacedByIds ids, 0 ≤ p.2 ∧ p.2 ≤ 1 := by
  intro p hp
  simp only [evenlySpacedByIds] at hp
  by_cases hk : (ids.insertionSort (· ≤ ·)).length ≤ 1
  · rw [if_pos hk] at hp
    obtain ⟨i, _, hpi⟩ := List.mem_map.mp hp
    rw [← hpi]
    norm_num
  · rw [if_neg hk] at hp
    obtain ⟨j, a, hj, _, hb⟩ := mem_mapIdxFrom 0 _ hp
    have hk2 : 2 ≤ (ids.insertionSort (· ≤ ·)).length := by omega
    have hpos : (0 : ℚ) < ((ids.insertionSort (· ≤ ·)).length : ℚ) - 1 := by
      have : (2 : ℚ) ≤ ((ids.insertionSort (· ≤ ·)).length : ℚ) := by exact_mod_cast hk2
      linarith
    have hjq : ((0 + j : ℕ) : ℚ) ≤ ((ids.insertionSort (· ≤ ·)).length : ℚ) - 1 := by
      have : (0 + j : ℕ) + 1 ≤ (ids.insertionSort (· ≤ ·)).length := by omega
      have h2 : (((0 + j : ℕ) : ℚ)) + 1 ≤ ((ids.insertionSort (· ≤ ·)).length : ℚ) := by
        exact_mod_cast this
      linarith
    rw [hb]
    constructor
    · exact div_nonneg (by positivity) (le_of_lt hpos)
    · rw [div_le_one hpos]
      exact hjq

/-- C8: cluster ordering.  Every position `orderClusters` assigns lies in
`[0, 1]` (min-max normalization of the projected scalars), and in the
degenerate case where all clusters project to the same scalar (for example
exactly one cluster, or a collapsed projection) it assigns evenly spaced
positions by ascending cluster id (`evenlySpacedByIds`) instead of dividing
by the zero range. -/
theorem orderClusters_spec (scalars : List (ℤ × ℚ)) (p : ℤ × ℚ)
    (hp : p ∈ orderClusters scalars) (c : ℚ) :
    (0 ≤ p.2 ∧ p.2 ≤ 1) ∧
    ((∀ q ∈ scalars, q.2 = c) →
      orderClusters scalars = evenlySpacedByIds (scalars.map Prod.fst)) := by
  constructor
  · simp only [orderClusters] at hp
    by_cases hdeg : listMax (scalars.map Prod.snd) = listMin (scalars.map Prod.snd)
    · rw [if_pos hdeg] at hp
      exact evenlySpacedByIds_bounds _ p hp
    · rw [if_neg hdeg] at hp
      obtain ⟨q, hq, hpq⟩ := List.mem_map.mp hp
      have hmem : q.2 ∈ scalars.map Prod.snd := List.mem_map_of_mem _ hq
      have hmn : listMin (scalars.map Prod.snd) ≤ q.2 := listMin_le_mem _ _ hmem
      have hmx : q.2 ≤ listMax (scalars.map Prod.snd) := mem_le_listMax _ _ hmem
      have hlt : listMin (scalars.map Prod.snd) < listMax (scalars.map Prod.snd) :=
        lt_of_le_of_ne (le_trans hmn hmx) (Ne.symm hdeg)
      rw [← hpq]
      refine ⟨div_nonneg (sub_nonneg.mpr hmn) (sub_nonneg.mpr (le_of_lt hlt)), ?_⟩
      rw [div_le_one (sub_pos.mpr hlt)]
      linarith
  · intro hall
    have hallv : ∀ x ∈ scalars.map Prod.snd, x = c := by
      intro x hx
      obtain ⟨q, hq, hqx⟩ := List.mem_map.mp hx
      rw [← hqx]
      exact hall q hq
    simp only [orderClusters]
    rw [if_pos (listMax_eq_listMin_all_eq _ c hallv)]

/-- C8 witness: two clusters whose projections collapse to the same scalar. -/
theorem orderClusters_spec_witness :
    ((1, 0) ∈ orderClusters [((1 : ℤ), (5 : ℚ)), (2, 5)] ∧
      (∀ q ∈ [((1 : ℤ), (5 : ℚ)), (2, 5)], q.2 = 5)) ∧
    ((0 ≤ ((1 : ℤ), (0 : ℚ)).2 ∧ ((1 : ℤ), (0 : ℚ)).2 ≤ 1) ∧
      ((∀ q ∈ [((1 : ℤ), (5 : ℚ)), (2, 5)], q.2 = 5) →
        orderClusters [((1 : ℤ), (5 : ℚ)), (2, 5)]
          = evenlySpacedByIds ([((1 : ℤ), (5 : ℚ)), (2, 5)].map Prod.fst))) :=
  ⟨⟨by norm_num [orderClusters, evenlySpacedByIds, listMin, listMax, mapIdxFrom,
        List.insertionSort, List.orderedInsert],
      by intro q hq; fin_cases hq <;> norm_num⟩,
    orderClusters_spec [((1 : ℤ), (5 : ℚ)), (2, 5)] (1, 0)
      (by norm_num [orderClusters, evenlySpacedByIds, listMin, listMax, mapIdxFrom,
        List.insertionSort, List.orderedInsert]) 5⟩

end Level
